import Mathlib

/-!
# exampleMigrateCLI: the command-line front end of a MySQL migration engine

A shallow embedding of `main.go`.  Go strings are Lean strings, a Go `error`
is an optional message, a Go slice of strings is an optional list (`none` is
the nil slice, `some []` an empty non-nil slice), and a run-time panic is the
error side of `Except Panic`.  The database driver, the migration engine and
`os.Getwd` are outside `main.go`; they enter as parameters (`Env`, the working
directory result) and every call made to them is recorded in a log.
-/

namespace MigrateCLI

/-! ## Go values -/

/-- Go `error`: `none` is `nil`, `some msg` an error carrying `msg`. -/
abbrev Error := Option String

/-- Run-time panics that `main.go` can raise. -/
inductive Panic where
  | indexOutOfRange
  deriving DecidableEq, Repr

/-- Go `[]string`: `none` is the nil slice, `some l` a non-nil slice. -/
abbrev Slice := Option (List String)

/-- Go `len(s)`. -/
def len (s : Slice) : Nat :=
  match s with
  | none => 0
  | some l => l.length

/-- Go `s[i]`: panics when `i` is not below `len(s)`. -/
def index (s : Slice) (i : Nat) : Except Panic String :=
  match s with
  | none => .error .indexOutOfRange
  | some l =>
    match l.get? i with
    | some v => .ok v
    | none => .error .indexOutOfRange

/-- Go `map[string][]string` as seen through indexing, the only way `main.go`
reads it: a missing key yields the nil slice. -/
abbrev Inputs := String → Slice

/-- The `Args` struct. -/
structure Args where
  Inputs : Inputs
  Path : String

/-- Go `fmt.Errorf(msg)` for a message without verbs. -/
def Errorf (msg : String) : Error := some msg

/-! ## Argument validation -/

/-- `Args.checkInputs` (main.go 41-56). -/
def checkInputs (a : Args) : Except Panic Error := do
  if a.Inputs "app-name" == none || decide (len (a.Inputs "app-name") < 1) then
    return Errorf "app-name (a) argument not provided"
  if a.Inputs "create" != none && a.Inputs "migrate" != none then
    return Errorf "cannot specify both create and migrate"
  if a.Inputs "migrate" != none then
    let m0 ← index (a.Inputs "migrate") 0
    if m0 != "up" then
      let m1 ← index (a.Inputs "migrate") 0
      if m1 != "down" then
        return Errorf "specify either 'up' or 'down' for migrate"
  if a.Inputs "create" == none && a.Inputs "migrate" == none then
    return Errorf "please select one of the following: create, migrate up or migrate down"
  return none

/-- `Args.GetAppName` (main.go 58-60). -/
def GetAppName (a : Args) : Except Panic String :=
  index (a.Inputs "app-name") 0

/-- `Args.GetAction` (main.go 77-90). -/
def GetAction (a : Args) : Except Panic (String × Error) := do
  if a.Inputs "create" != none && decide (len (a.Inputs "create") > 0) then
    return ("create", none)
  if a.Inputs "migrate" != none then
    let m0 ← index (a.Inputs "migrate") 0
    if m0 == "up" then
      return ("migrate-up", none)
    else
      return ("migrate-down", none)
  return ("", Errorf "no action could be found")

/-! ## Paths -/

/-- Go `strings.Split(s, sep)` for a one-character separator, on characters:
the pieces between consecutive separators, `[s]` when there is none. -/
def splitChars (sep : Char) : List Char → List (List Char)
  | [] => [[]]
  | c :: cs =>
    if c = sep then [] :: splitChars sep cs
    else
      match splitChars sep cs with
      | [] => [[c]]
      | h :: t => (c :: h) :: t

/-- Go `strings.Split(s, sep)` for a one-character separator. -/
def Split (s : String) (sep : Char) : List String :=
  (splitChars sep s.data).map String.mk

/-- Go `strings.Join(elems, sep)`. -/
def Join (elems : List String) (sep : String) : String :=
  match elems with
  | [] => ""
  | [x] => x
  | x :: y :: rest => x ++ sep ++ Join (y :: rest) sep

/-- The characters of `Join`: the pieces with `sep` between neighbours. -/
def joinChars (sep : List Char) : List (List Char) → List Char
  | [] => []
  | [x] => x
  | x :: y :: rest => x ++ sep ++ joinChars sep (y :: rest)

/-- `getBaseDir` (main.go 186-197); `wd` is what `os.Getwd()` returned. -/
def getBaseDir (wd : String × Error) : String × Error :=
  if wd.2 != none then ("", wd.2)
  else
    let dirS := Split wd.1 '/'
    let dirS := if dirS.length > 1 then dirS.take (dirS.length - 1) else dirS
    (Join dirS "/", none)

/-- `Args.SetPath` (main.go 62-75): the updated `Args` and the returned error. -/
def SetPath (wd : String × Error) (a : Args) : Except Panic (Args × Error) := do
  let appName ← GetAppName a
  let (dir, err) := getBaseDir wd
  if err != none then
    return (a, err)
  return ({ a with Path := dir ++ "/" ++ appName ++ "/migrations" }, none)

/-! ## The database handle and the migration engine -/

/-- Bound parameters of a statement (Go `[]interface{}`): `none` is nil. -/
abbrev Params := Option (List String)

/-- A call made on a database handle. -/
inductive DbCall where
  | QueryRaw (statement : String) (params : Params)
  | Exec (statement : String) (params : Params)
  | SetSchema (schema : String)
  deriving DecidableEq, Repr

/-- The `database.Database` handle as `main.go` observes it: the schema it is
scoped to and the calls made on it so far, oldest first. -/
structure Database where
  schema : String
  calls : List DbCall
  deriving DecidableEq, Repr

/-- A row of a query result; `main.go` only counts rows. -/
abbrev Row := List (String × String)

/-- The `database.Configs` fields that `connect` fills in. -/
structure Configs where
  Host : String
  Port : String
  Username : String
  Password : String
  Driver : String
  deriving DecidableEq, Repr

/-- A verb of the migration engine invoked as `migrate.Make(db, path).Verb(...)`;
`db` is the pointer handed over (`none` is nil). -/
inductive EngineCall where
  | Create (db : Option Database) (path : String) (name : String)
  | MigrateUp (db : Option Database) (path : String)
  | MigrateDown (db : Option Database) (path : String)
  deriving DecidableEq, Repr

/-- The imported packages: what each call returns.  The database calls see the
handle as it is when they are made, so their answers may depend on its history. -/
structure Env where
  MakeSchemaless : Configs → Database × Error
  QueryRaw : Database → String → Params → List Row × Error
  Exec : Database → String → Params → Error
  Create : Option Database → String → String → Error
  MigrateUp : Option Database → String → Error
  MigrateDown : Option Database → String → Error

/-- What the engine answers to a call. -/
def Env.result (env : Env) : EngineCall → Error
  | .Create db path name => env.Create db path name
  | .MigrateUp db path => env.MigrateUp db path
  | .MigrateDown db path => env.MigrateDown db path

/-- Result of `bootSchema`: the handle `db` points to after the call, the
returned pointer (`none` is nil) and the returned error. -/
structure BootResult where
  handle : Database
  returned : Option Database
  err : Error
  deriving DecidableEq, Repr

/-- Text of the schema-existence query built in `bootSchema` (main.go 124-127). -/
def existsQ (appName : String) : String :=
  "SELECT schema_name FROM information_schema.schemata WHERE schema_name = '" ++ appName ++ "'"

/-- Text of the statement built in `bootSchema` (main.go 133). -/
def createSchemaQ (appName : String) : String :=
  "create schema " ++ appName

/-- Record a call on a handle. -/
def Database.record (db : Database) (c : DbCall) : Database :=
  { db with calls := db.calls ++ [c] }

/-- The calls made on a handle between two of its states. -/
def issued (before after : Database) : List DbCall :=
  after.calls.drop before.calls.length

/-- `bootSchema` (main.go 122-140).  `db.SetSchema(n)` is recorded as a call and
scopes the handle to `n`. -/
def bootSchema (env : Env) (a : Args) (db : Database) : Except Panic BootResult := do
  let q := existsQ (← GetAppName a)
  let (schemaExists, err) := env.QueryRaw db q none
  let mut db := db.record (.QueryRaw q none)
  if err != none then
    return ⟨db, none, err⟩
  if schemaExists.length < 1 then
    let c := createSchemaQ (← GetAppName a)
    let err := env.Exec db c none
    db := db.record (.Exec c none)
    if err != none then
      return ⟨db, none, err⟩
  let n ← GetAppName a
  db := { db.record (.SetSchema n) with schema := n }
  return ⟨db, some db, none⟩

/-- `connect` (main.go 103-120): the returned pointer and error. -/
def connect (env : Env) (a : Args) : Except Panic (Option Database × Error) := do
  let (db, err) := env.MakeSchemaless
    { Host := "127.0.0.1", Port := "3306", Username := "root", Password := "secret",
      Driver := "mysql" }
  if err != none then
    return (none, err)
  let r ← bootSchema env a db
  return (r.returned, r.err)

/-- What a run of `handle` did: the engine verbs invoked, oldest first, and the
returned error. -/
structure HandleResult where
  calls : List EngineCall
  err : Error
  deriving DecidableEq, Repr

/-- `create` (main.go 162-168). -/
def create (env : Env) (a : Args) (db : Option Database) : Except Panic HandleResult := do
  let name ← index (a.Inputs "create") 0
  let err := env.Create db a.Path name
  if err != none then
    return ⟨[.Create db a.Path name], err⟩
  return ⟨[.Create db a.Path name], none⟩

/-- `migrateUp` (main.go 170-176). -/
def migrateUp (env : Env) (a : Args) (db : Option Database) : Except Panic HandleResult := do
  let err := env.MigrateUp db a.Path
  if err != none then
    return ⟨[.MigrateUp db a.Path], err⟩
  return ⟨[.MigrateUp db a.Path], none⟩

/-- `migrateDown` (main.go 178-184). -/
def migrateDown (env : Env) (a : Args) (db : Option Database) : Except Panic HandleResult := do
  let err := env.MigrateDown db a.Path
  if err != none then
    return ⟨[.MigrateDown db a.Path], err⟩
  return ⟨[.MigrateDown db a.Path], none⟩

/-- `handle` (main.go 142-160). -/
def handle (env : Env) (a : Args) : Except Panic HandleResult := do
  let (db, err) ← connect env a
  if err != none then
    return ⟨[], err⟩
  let (action, err) ← GetAction a
  if err != none then
    return ⟨[], err⟩
  if action == "create" then
    create env a db
  else if action == "migrate-up" then
    migrateUp env a db
  else if action == "migrate-down" then
    migrateDown env a db
  else
    return ⟨[], none⟩

/-- Two input maps that agree everywhere except on the values of `migrate`
after the first one. -/
def sameUpToSteps (i j : Inputs) : Prop :=
  (∀ k, k ≠ "migrate" → i k = j k) ∧
  (i "migrate" = j "migrate" ∨
   ∃ d r1 r2, i "migrate" = some (d :: r1) ∧ j "migrate" = some (d :: r2))

/-- How a step that may call `log.Fatal` ends: `fatal` is exit status 1. -/
inductive Exit (α : Type) where
  | fatal (msg : String)
  | cont (v : α)

/-- `Args.SetInputs` (main.go 31-39); `wd` is what `os.Getwd()` returns. -/
def SetInputs (wd : String × Error) (a : Args) (inputs : Inputs) :
    Except Panic (Exit Args) := do
  let a := { a with Inputs := inputs }
  match ← checkInputs a with
  | some msg => return .fatal msg
  | none =>
    match ← SetPath wd a with
    | (_, some msg) => return .fatal msg
    | (a, none) => return .cont a

/-- The part of `main` after argument parsing (main.go 98-100): the exit status
of the process, `1` through `log.Fatal` and `0` on a normal return. -/
def mainExit (env : Env) (a : Args) : Except Panic Nat := do
  let r ← handle env a
  if r.err != none then
    return 1
  return 0

/-! ## The planner of the engine package -/

/-- Modelled from the spec: the `MigrationFile` record of the imported engine
package (spec section 3), whose source is not part of `main.go`. -/
structure MigrationFile where
  version : String
  name : String
  upScript : String
  downScript : Option String
  deriving DecidableEq, Repr

/-- Modelled from the spec: insertion of a file into a plan kept ascending by
version, the step of `ComputeUpPlan` of the imported engine package.  Versions
are compared as strings, character by character. -/
def insertByVersion (f : MigrationFile) : List MigrationFile → List MigrationFile
  | [] => [f]
  | g :: rest =>
    if f.version.data < g.version.data then f :: g :: rest
    else g :: insertByVersion f rest

/-- Modelled from the spec: ordering of a list of files ascending by version,
used by `ComputeUpPlan` of the imported engine package. -/
def sortByVersion : List MigrationFile → List MigrationFile
  | [] => []
  | f :: rest => insertByVersion f (sortByVersion rest)

/-- Modelled from the spec: `ComputeUpPlan` of the imported engine package
(reached through `migrate.Make(db, path).MigrateUp()`, whose source is not part
of `main.go`): "returns every MigrationFile whose version is not in appliedSet,
ascending by version". -/
def ComputeUpPlan (catalog : List MigrationFile) (appliedSet : List String) :
    List MigrationFile :=
  sortByVersion (catalog.filter (fun f => !appliedSet.contains f.version))

/-! ## Example inputs -/

/-- Inputs of `-a shop -c` : an app name and a `create` flag without a value. -/
def inputsCreateEmpty : Inputs := fun k =>
  if k = "app-name" then some ["shop"]
  else if k = "create" then some []
  else none

/-- Inputs of `-a shop -m down 3`. -/
def inputsDown3 : Inputs := fun k =>
  if k = "app-name" then some ["shop"]
  else if k = "migrate" then some ["down", "3"]
  else none

/-- Inputs of `-a shop -m down`. -/
def inputsDown : Inputs := fun k =>
  if k = "app-name" then some ["shop"]
  else if k = "migrate" then some ["down"]
  else none

/-- An engine whose verbs all succeed, on a database where the schema exists. -/
def envOk : Env where
  MakeSchemaless := fun _ => (⟨"", []⟩, none)
  QueryRaw := fun _ _ _ => ([[("schema_name", "shop")]], none)
  Exec := fun _ _ _ => none
  Create := fun _ _ _ => none
  MigrateUp := fun _ _ => none
  MigrateDown := fun _ _ => none

/-- An engine whose `MigrateDown` fails, on a database where the schema exists. -/
def envDownFails : Env where
  MakeSchemaless := fun _ => (⟨"", []⟩, none)
  QueryRaw := fun _ _ _ => ([[("schema_name", "shop")]], none)
  Exec := fun _ _ _ => none
  Create := fun _ _ _ => none
  MigrateUp := fun _ _ => none
  MigrateDown := fun _ _ => some "no migrations to roll back"

/-- The handle `connect` returns for the app `shop` when the schema exists. -/
def dbShop : Database :=
  ⟨"shop", [.QueryRaw (existsQ "shop") none, .SetSchema "shop"]⟩

/-- An engine whose verbs all succeed, on a database where the schema is absent. -/
def envFresh : Env where
  MakeSchemaless := fun _ => (⟨"", []⟩, none)
  QueryRaw := fun _ _ _ => ([], none)
  Exec := fun _ _ _ => none
  Create := fun _ _ _ => none
  MigrateUp := fun _ _ => none
  MigrateDown := fun _ _ => none

/-- Inputs of `-a blog -m up`. -/
def inputsBlogUp : Inputs := fun k =>
  if k = "app-name" then some ["blog"]
  else if k = "migrate" then some ["up"]
  else none

/-- A catalog of two files, the end-to-end example of the spec. -/
def catalog2 : List MigrationFile :=
  [⟨"20240101000000", "init", "create table t (id int)", none⟩,
   ⟨"20240102000000", "add_col", "alter table t add c int", none⟩]

/-! ## Theorems -/

/-! ### Validation and dispatch -/

/-- Shape of every accepted input: an app name, and either `create` alone or
`migrate` alone with first value `up` or `down`. -/
theorem checkInputs_accepts_iff (a : Args) :
    checkInputs a = .ok none ↔
      (∃ n rest, a.Inputs "app-name" = some (n :: rest)) ∧
      ((∃ lc, a.Inputs "create" = some lc ∧ a.Inputs "migrate" = none) ∨
       (a.Inputs "create" = none ∧
        ∃ d rest, a.Inputs "migrate" = some (d :: rest) ∧ (d = "up" ∨ d = "down"))) := by
  unfold checkInputs
  rcases hA : a.Inputs "app-name" with _ | la <;>
  rcases hC : a.Inputs "create" with _ | lc <;>
  rcases hM : a.Inputs "migrate" with _ | lm <;>
  simp [len, index, Errorf, bind, Except.bind, pure, Except.pure]
  all_goals (rcases la with _ | ⟨n, la⟩ <;> simp)
  rcases lm with _ | ⟨d, lm⟩ <;> simp
  by_cases h1 : d = "up" <;> by_cases h2 : d = "down" <;> simp [h1, h2]

/-- With `migrate` nil or non-empty, `checkInputs` does not panic: it returns
nil or an error. -/
theorem checkInputs_returns (a : Args)
    (h : a.Inputs "migrate" = none ∨ 1 ≤ len (a.Inputs "migrate")) :
    checkInputs a = .ok none ∨ ∃ msg, checkInputs a = .ok (some msg) := by
  unfold checkInputs
  rcases hA : a.Inputs "app-name" with _ | la <;>
  rcases hC : a.Inputs "create" with _ | lc <;>
  rcases hM : a.Inputs "migrate" with _ | lm <;>
  simp [hM, len] at h <;>
  simp [len, index, Errorf, bind, Except.bind, pure, Except.pure]
  all_goals (rcases la with _ | ⟨n, la⟩ <;> simp)
  rcases lm with _ | ⟨d, lm⟩
  · simp at h
  · by_cases h1 : d = "up" <;> by_cases h2 : d = "down" <;> simp [h1, h2]

/-- `GetAppName` on inputs that carry an app name. -/
theorem GetAppName_of_cons (a : Args) (n : String) (rest : List String)
    (h : a.Inputs "app-name" = some (n :: rest)) : GetAppName a = .ok n := by
  simp [GetAppName, index, h]

/-- `GetAction` when `create` has a value. -/
theorem GetAction_create (a : Args) (name : String) (rest : List String)
    (h : a.Inputs "create" = some (name :: rest)) :
    GetAction a = .ok ("create", none) := by
  simp [GetAction, h, len, pure, Except.pure]

/-- `GetAction` when `create` is nil and `migrate` has a value. -/
theorem GetAction_migrate (a : Args) (d : String) (rest : List String)
    (hc : a.Inputs "create" = none) (h : a.Inputs "migrate" = some (d :: rest)) :
    GetAction a = .ok (if d = "up" then "migrate-up" else "migrate-down", none) := by
  by_cases hd : d = "up" <;>
  simp [GetAction, h, hc, hd, len, index, bind, Except.bind, pure, Except.pure]

/-- C1: for inputs whose `migrate` is nil or non-empty, `checkInputs` returns nil
exactly when `app-name` has a value, exactly one of `create` and `migrate` is
non-nil, and a non-nil `migrate` starts with `up` or `down`; otherwise it
returns a non-nil error. -/
theorem checkInputs_nil_iff (a : Args)
    (h : a.Inputs "migrate" = none ∨ 1 ≤ len (a.Inputs "migrate")) :
    (checkInputs a = .ok none ↔
      (1 ≤ len (a.Inputs "app-name") ∧
       ((a.Inputs "create" ≠ none ∧ a.Inputs "migrate" = none) ∨
        (a.Inputs "create" = none ∧ a.Inputs "migrate" ≠ none)) ∧
       (∀ l, a.Inputs "migrate" = some l → l.head? = some "up" ∨ l.head? = some "down")))
    ∧ (checkInputs a ≠ .ok none → ∃ msg, checkInputs a = .ok (some msg)) := by
  refine ⟨?_, fun hne => (checkInputs_returns a h).resolve_left hne⟩
  rw [checkInputs_accepts_iff]
  rcases hA : a.Inputs "app-name" with _ | la <;>
  rcases hC : a.Inputs "create" with _ | lc <;>
  rcases hM : a.Inputs "migrate" with _ | lm <;>
  simp [hM, len] at h <;>
  simp [len]
  all_goals (rcases la with _ | ⟨n, la⟩ <;> simp)
  rcases lm with _ | ⟨d, lm⟩
  · simp at h
  · simp

/-- C1 at the inputs of `-a shop -m down 3`: accepted. -/
theorem checkInputs_nil_iff_witness :
    (inputsDown3 "migrate" = none ∨ 1 ≤ len (inputsDown3 "migrate")) ∧
    checkInputs ⟨inputsDown3, ""⟩ = .ok none :=
  ⟨Or.inr (by decide),
   ((checkInputs_nil_iff ⟨inputsDown3, ""⟩ (Or.inr (by decide))).1).2
     ⟨by decide, Or.inr ⟨by decide, by decide⟩, by
       intro l hl
       have : l = ["down", "3"] := by
         have h2 : inputsDown3 "migrate" = some ["down", "3"] := by decide
         exact (Option.some.inj (hl.symm.trans h2))
       subst this
       exact Or.inr rfl⟩⟩

/-! ### Schema bootstrapping -/

/-- With an app name `n`, `bootSchema` does not panic; its result, case by case. -/
theorem bootSchema_of_appName (env : Env) (a : Args) (db : Database) (n : String)
    (rest : List String) (h : a.Inputs "app-name" = some (n :: rest)) :
    bootSchema env a db = .ok
      (if (env.QueryRaw db (existsQ n) none).2 != none then
        ⟨db.record (.QueryRaw (existsQ n) none), none, (env.QueryRaw db (existsQ n) none).2⟩
      else if (env.QueryRaw db (existsQ n) none).1.length < 1 then
        if env.Exec (db.record (.QueryRaw (existsQ n) none)) (createSchemaQ n) none != none then
          ⟨(db.record (.QueryRaw (existsQ n) none)).record (.Exec (createSchemaQ n) none), none,
            env.Exec (db.record (.QueryRaw (existsQ n) none)) (createSchemaQ n) none⟩
        else
          ⟨{ ((db.record (.QueryRaw (existsQ n) none)).record
                (.Exec (createSchemaQ n) none)).record (.SetSchema n) with schema := n },
           some { ((db.record (.QueryRaw (existsQ n) none)).record
                (.Exec (createSchemaQ n) none)).record (.SetSchema n) with schema := n },
           none⟩
      else
        ⟨{ (db.record (.QueryRaw (existsQ n) none)).record (.SetSchema n) with schema := n },
         some { (db.record (.QueryRaw (existsQ n) none)).record (.SetSchema n) with schema := n },
         none⟩) := by
  have hn := GetAppName_of_cons a n rest h
  simp only [bootSchema, hn, bind, Except.bind, pure, Except.pure]
  split_ifs <;> rfl

/-- The calls recorded on top of a handle are the ones issued since. -/
theorem issued_append (db : Database) (s : String) (cs : List DbCall) :
    issued db ⟨s, db.calls ++ cs⟩ = cs := by
  simp [issued]

/-- C3: `bootSchema` issues `create schema <app-name>` exactly when the existence
query succeeds with zero rows; it sets the schema and returns the handle exactly
when it returns no error; a failing query or create statement is returned as the
error, with no pointer returned and the schema left unset. -/
theorem bootSchema_contract (env : Env) (a : Args) (db : Database) (n : String)
    (rest : List String) (h : a.Inputs "app-name" = some (n :: rest)) :
    ∃ r, bootSchema env a db = .ok r ∧
      ((DbCall.Exec (createSchemaQ n) none ∈ issued db r.handle) ↔
        ((env.QueryRaw db (existsQ n) none).2 = none ∧
         (env.QueryRaw db (existsQ n) none).1.length = 0)) ∧
      (∀ s p, DbCall.Exec s p ∈ issued db r.handle → s = createSchemaQ n ∧ p = none) ∧
      ((DbCall.SetSchema n ∈ issued db r.handle ∧ r.handle.schema = n ∧
          r.returned = some r.handle) ↔ r.err = none) ∧
      (r.err ≠ none →
        r.returned = none ∧ r.handle.schema = db.schema ∧
        ∀ s, DbCall.SetSchema s ∉ issued db r.handle) ∧
      (∀ e, (env.QueryRaw db (existsQ n) none).2 = some e → r.err = some e) ∧
      (∀ e, (env.QueryRaw db (existsQ n) none).2 = none →
        (env.QueryRaw db (existsQ n) none).1.length = 0 →
        env.Exec (db.record (.QueryRaw (existsQ n) none)) (createSchemaQ n) none = some e →
        r.err = some e) := by
  refine ⟨_, bootSchema_of_appName env a db n rest h, ?_⟩
  rcases hq : env.QueryRaw db (existsQ n) none with ⟨rows, qerr⟩
  rcases qerr with _ | qe
  · rcases rows with _ | ⟨row, rows⟩
    · rcases hx : env.Exec (db.record (.QueryRaw (existsQ n) none)) (createSchemaQ n) none
        with _ | xe
      · simp [Database.record, issued_append]
      · simp [Database.record, issued_append]
    · simp [Database.record, issued_append]
  · simp [Database.record, issued_append]

/-- C3 on a database without the schema: the create statement is issued and the
handle comes back scoped to the app. -/
theorem bootSchema_contract_witness :
    inputsDown "app-name" = some ("shop" :: []) ∧
    ∃ r, bootSchema envFresh ⟨inputsDown, ""⟩ ⟨"", []⟩ = .ok r ∧
      DbCall.Exec (createSchemaQ "shop") none ∈ issued ⟨"", []⟩ r.handle ∧
      r.err = none := by
  refine ⟨by decide, ?_⟩
  obtain ⟨r, hr, hexec, _, hset, _⟩ :=
    bootSchema_contract envFresh ⟨inputsDown, ""⟩ ⟨"", []⟩ "shop" [] (by decide)
  refine ⟨r, hr, hexec.2 ⟨rfl, rfl⟩, ?_⟩
  have hr2 : bootSchema envFresh ⟨inputsDown, ""⟩ ⟨"", []⟩ =
      .ok ⟨⟨"shop", [.QueryRaw (existsQ "shop") none, .Exec (createSchemaQ "shop") none,
        .SetSchema "shop"]⟩, some ⟨"shop", [.QueryRaw (existsQ "shop") none,
        .Exec (createSchemaQ "shop") none, .SetSchema "shop"]⟩, none⟩ := rfl
  rw [hr2] at hr
  cases hr
  rfl

/-- The text of the existence query determines the app name. -/
theorem existsQ_injective (m n : String) (h : existsQ m = existsQ n) : m = n := by
  unfold existsQ at h
  have h2 := congrArg String.data h
  simp only [String.data_append] at h2
  exact String.ext (List.append_cancel_left (List.append_cancel_right h2))

/-- C7 fails: for the app names `shop` and `blog` the statement texts handed to
`QueryRaw` differ, each carrying the app name, and the params argument is nil. -/
theorem query_text_differs_counterexample :
    (bootSchema envOk ⟨inputsDown, ""⟩ ⟨"", []⟩).map (fun r => r.handle.calls) =
      .ok [.QueryRaw
        "SELECT schema_name FROM information_schema.schemata WHERE schema_name = 'shop'" none,
        .SetSchema "shop"] ∧
    (bootSchema envOk ⟨inputsBlogUp, ""⟩ ⟨"", []⟩).map (fun r => r.handle.calls) =
      .ok [.QueryRaw
        "SELECT schema_name FROM information_schema.schemata WHERE schema_name = 'blog'" none,
        .SetSchema "blog"] ∧
    "SELECT schema_name FROM information_schema.schemata WHERE schema_name = 'shop'" ≠
      "SELECT schema_name FROM information_schema.schemata WHERE schema_name = 'blog'" :=
  ⟨rfl, rfl, by decide⟩

/-- C7 as amended: `bootSchema` writes the app name into the statement text, between
single quotes after a fixed text, and passes nil params on every call; the first
call it makes is that query, and different app names give different texts. -/
theorem bootSchema_query_text (env : Env) (a : Args) (db : Database) (n : String)
    (rest : List String) (h : a.Inputs "app-name" = some (n :: rest)) :
    ∃ r, bootSchema env a db = .ok r ∧
      (issued db r.handle).head? = some (.QueryRaw
        ("SELECT schema_name FROM information_schema.schemata WHERE schema_name = '"
          ++ n ++ "'") none) ∧
      (∀ s p, DbCall.QueryRaw s p ∈ issued db r.handle → s = existsQ n ∧ p = none) ∧
      (∀ s p, DbCall.Exec s p ∈ issued db r.handle → s = "create schema " ++ n ∧ p = none) ∧
      (∀ m, m ≠ n → existsQ m ≠ existsQ n) := by
  refine ⟨_, bootSchema_of_appName env a db n rest h, ?_, ?_, ?_,
    fun m hm he => hm (existsQ_injective m n he)⟩
  all_goals
    rcases hq : env.QueryRaw db (existsQ n) none with ⟨rows, qerr⟩
    rcases qerr with _ | qe
    · rcases rows with _ | ⟨row, rows⟩
      · rcases hx : env.Exec (db.record (.QueryRaw (existsQ n) none)) (createSchemaQ n) none
          with _ | xe
        · simp [Database.record, issued_append, existsQ, createSchemaQ]
        · simp [Database.record, issued_append, existsQ, createSchemaQ]
      · simp [Database.record, issued_append, existsQ, createSchemaQ]
    · simp [Database.record, issued_append, existsQ, createSchemaQ]

/-- C7 as amended, for the app `blog` on a database without the schema. -/
theorem bootSchema_query_text_witness :
    inputsBlogUp "app-name" = some ("blog" :: []) ∧
    ∃ r, bootSchema envFresh ⟨inputsBlogUp, ""⟩ ⟨"", []⟩ = .ok r ∧
      (issued ⟨"", []⟩ r.handle).head? = some (.QueryRaw
        "SELECT schema_name FROM information_schema.schemata WHERE schema_name = 'blog'"
        none) := by
  refine ⟨by decide, ?_⟩
  obtain ⟨r, hr, hhead, _⟩ :=
    bootSchema_query_text envFresh ⟨inputsBlogUp, ""⟩ ⟨"", []⟩ "blog" [] (by decide)
  exact ⟨r, hr, hhead⟩

/-! ### Dispatch to the engine -/

/-- With an app name, `connect` does not panic. -/
theorem connect_returns (env : Env) (a : Args) (n : String) (rest : List String)
    (h : a.Inputs "app-name" = some (n :: rest)) : ∃ r, connect env a = .ok r := by
  simp only [connect, bootSchema_of_appName env a _ n rest h, bind, Except.bind, pure,
    Except.pure]
  split_ifs <;> exact ⟨_, rfl⟩

/-- When `connect` returns an error, `handle` returns it and invokes no verb. -/
theorem handle_connect_error (env : Env) (a : Args) (db : Option Database) (e : String)
    (hc : connect env a = .ok (db, some e)) : handle env a = .ok ⟨[], some e⟩ := by
  simp [handle, hc, bind, Except.bind, pure, Except.pure]

/-- After a successful `connect`, `create` with a value runs the `Create` verb. -/
theorem handle_create (env : Env) (a : Args) (db : Option Database) (name : String)
    (rest : List String) (hc : connect env a = .ok (db, none))
    (h : a.Inputs "create" = some (name :: rest)) :
    handle env a = .ok ⟨[.Create db a.Path name], env.Create db a.Path name⟩ := by
  rcases hx : env.Create db a.Path name with _ | e <;>
  simp [handle, hc, GetAction_create a name rest h, create, h, index, hx, bind, Except.bind,
    pure, Except.pure]

/-- After a successful `connect`, `migrate` alone runs `MigrateUp` for a first value
`up` and `MigrateDown` for any other first value. -/
theorem handle_migrate (env : Env) (a : Args) (db : Option Database) (d : String)
    (rest : List String) (hc : connect env a = .ok (db, none))
    (hcr : a.Inputs "create" = none) (h : a.Inputs "migrate" = some (d :: rest)) :
    handle env a = .ok
      (if d = "up" then ⟨[.MigrateUp db a.Path], env.MigrateUp db a.Path⟩
       else ⟨[.MigrateDown db a.Path], env.MigrateDown db a.Path⟩) := by
  by_cases hd : d = "up"
  · rcases hx : env.MigrateUp db a.Path with _ | e <;>
    simp [handle, hc, GetAction_migrate a d rest hcr h, migrateUp, hd, hx, bind, Except.bind,
      pure, Except.pure]
  · rcases hx : env.MigrateDown db a.Path with _ | e <;>
    simp [handle, hc, GetAction_migrate a d rest hcr h, migrateDown, hd, hx, bind,
      Except.bind, pure, Except.pure]

/-- After a successful `connect`, an empty `create` alone makes `handle` return the
error of `GetAction`, with no verb invoked. -/
theorem handle_no_action (env : Env) (a : Args) (db : Option Database)
    (hc : connect env a = .ok (db, none))
    (hcr : a.Inputs "create" = some []) (h : a.Inputs "migrate" = none) :
    handle env a = .ok ⟨[], some "no action could be found"⟩ := by
  simp [handle, hc, GetAction, hcr, h, len, Errorf, bind, Except.bind, pure, Except.pure]

/-- C2: for accepted inputs with a `create` value or a `migrate`, after a
successful `connect`, `handle` invokes exactly one engine verb and returns its
result: `Create` with the first `create` value, `MigrateUp` for `up`,
`MigrateDown` for `down`; the process exits with status 1 exactly when that
verb returned an error and with status 0 otherwise. -/
theorem handle_dispatch (env : Env) (a : Args) (db : Option Database)
    (hacc : checkInputs a = .ok none)
    (hact : 1 ≤ len (a.Inputs "create") ∨ a.Inputs "migrate" ≠ none)
    (hconn : connect env a = .ok (db, none)) :
    ∃ c, handle env a = .ok ⟨[c], env.result c⟩ ∧
      (∀ name rest, a.Inputs "create" = some (name :: rest) → c = .Create db a.Path name) ∧
      (∀ rest, a.Inputs "migrate" = some ("up" :: rest) → c = .MigrateUp db a.Path) ∧
      (∀ rest, a.Inputs "migrate" = some ("down" :: rest) → c = .MigrateDown db a.Path) ∧
      ((∃ name, index (a.Inputs "create") 0 = .ok name ∧ c = .Create db a.Path name) ∨
        c = .MigrateUp db a.Path ∨ c = .MigrateDown db a.Path) ∧
      mainExit env a = .ok (if env.result c = none then 0 else 1) := by
  rcases (checkInputs_accepts_iff a).1 hacc with
    ⟨-, ⟨lc, hc, hm⟩ | ⟨hc, d, rest, hm, hd⟩⟩
  · rcases lc with _ | ⟨name, lc⟩
    · simp [hc, hm, len] at hact
    · have hh := handle_create env a db name lc hconn hc
      refine ⟨.Create db a.Path name, hh, ?_, ?_, ?_, ?_, ?_⟩
      · intro name2 rest2 h2
        rw [hc] at h2
        cases h2
        rfl
      · intro rest2 h2
        rw [hm] at h2
        cases h2
      · intro rest2 h2
        rw [hm] at h2
        cases h2
      · left
        exact ⟨name, by simp [hc, index], rfl⟩
      · rcases hx : env.Create db a.Path name with _ | e <;>
        simp [mainExit, hh, Env.result, hx, bind, Except.bind, pure, Except.pure]
  · have hh := handle_migrate env a db d rest hconn hc hm
    rcases hd with hd | hd
    · subst hd
      simp only [if_true] at hh
      refine ⟨.MigrateUp db a.Path, hh, ?_, ?_, ?_, ?_, ?_⟩
      · intro name2 rest2 h2
        rw [hc] at h2
        cases h2
      · intro rest2 h2
        rfl
      · intro rest2 h2
        rw [hm] at h2
        have := (List.cons.inj (Option.some.inj h2)).1
        exact absurd this (by decide)
      · right; left; rfl
      · rcases hx : env.MigrateUp db a.Path with _ | e <;>
        simp [mainExit, hh, Env.result, hx, bind, Except.bind, pure, Except.pure]
    · subst hd
      have hne : ¬ ("down" = "up") := by decide
      simp only [hne, if_false] at hh
      refine ⟨.MigrateDown db a.Path, hh, ?_, ?_, ?_, ?_, ?_⟩
      · intro name2 rest2 h2
        rw [hc] at h2
        cases h2
      · intro rest2 h2
        rw [hm] at h2
        have := (List.cons.inj (Option.some.inj h2)).1
        exact absurd this (by decide)
      · intro rest2 h2
        rfl
      · right; right; rfl
      · rcases hx : env.MigrateDown db a.Path with _ | e <;>
        simp [mainExit, hh, Env.result, hx, bind, Except.bind, pure, Except.pure]

/-- C2 on `-a shop -m down 3` with an engine whose `MigrateDown` fails: the one
verb invoked is `MigrateDown`, its error is the result of `handle`, and the exit
status is 1. -/
theorem handle_dispatch_witness :
    checkInputs ⟨inputsDown3, "/srv/shop/migrations"⟩ = .ok none ∧
    (1 ≤ len (inputsDown3 "create") ∨ inputsDown3 "migrate" ≠ none) ∧
    connect envDownFails ⟨inputsDown3, "/srv/shop/migrations"⟩ = .ok (some dbShop, none) ∧
    ∃ c, handle envDownFails ⟨inputsDown3, "/srv/shop/migrations"⟩ =
        .ok ⟨[c], envDownFails.result c⟩ ∧
      c = .MigrateDown (some dbShop) "/srv/shop/migrations" ∧
      mainExit envDownFails ⟨inputsDown3, "/srv/shop/migrations"⟩ =
        .ok (if envDownFails.result c = none then 0 else 1) := by
  refine ⟨rfl, Or.inr (by decide), rfl, ?_⟩
  obtain ⟨c, hc, -, -, hdown, -, hexit⟩ :=
    handle_dispatch envDownFails ⟨inputsDown3, "/srv/shop/migrations"⟩ (some dbShop) rfl
      (Or.inr (by decide)) rfl
  exact ⟨c, hc, hdown ["3"] rfl, hexit⟩

/-- C8 fails: the inputs of `-a shop -c` (a `create` flag without a value) are
accepted by `checkInputs`, and `GetAction` then returns the "no action could be
found" error. -/
theorem empty_create_no_action_counterexample :
    checkInputs ⟨inputsCreateEmpty, ""⟩ = .ok none ∧
    GetAction ⟨inputsCreateEmpty, ""⟩ = .ok ("", some "no action could be found") ∧
    ¬ ∃ act, GetAction ⟨inputsCreateEmpty, ""⟩ = .ok (act, none) ∧
        (act = "create" ∨ act = "migrate-up" ∨ act = "migrate-down") := by
  refine ⟨rfl, rfl, ?_⟩
  rintro ⟨act, h, -⟩
  have h2 : GetAction ⟨inputsCreateEmpty, ""⟩ = .ok ("", some "no action could be found") :=
    rfl
  rw [h2] at h
  cases h

/-- C8 as amended: for accepted inputs whose `create` is nil or has a value,
`GetAction` returns `create`, `migrate-up` or `migrate-down` with a nil error;
for accepted inputs whose `create` is non-nil and empty it returns the "no action
could be found" error. -/
theorem GetAction_after_check (a : Args) (hacc : checkInputs a = .ok none) :
    ((a.Inputs "create" = none ∨ 1 ≤ len (a.Inputs "create")) →
      ∃ act, GetAction a = .ok (act, none) ∧
        (act = "create" ∨ act = "migrate-up" ∨ act = "migrate-down")) ∧
    (a.Inputs "create" = some [] →
      GetAction a = .ok ("", some "no action could be found")) := by
  rcases (checkInputs_accepts_iff a).1 hacc with
    ⟨-, ⟨lc, hc, hm⟩ | ⟨hc, d, rest, hm, hd⟩⟩
  · rcases lc with _ | ⟨name, lc⟩
    · refine ⟨fun h => ?_, fun _ => ?_⟩
      · simp [hc, len] at h
      · simp [GetAction, hc, hm, len, Errorf, bind, Except.bind, pure, Except.pure]
    · refine ⟨fun _ => ⟨"create", GetAction_create a name lc hc, Or.inl rfl⟩, fun h => ?_⟩
      rw [hc] at h
      cases h
  · refine ⟨fun _ => ?_, fun h => ?_⟩
    · refine ⟨_, GetAction_migrate a d rest hc hm, ?_⟩
      by_cases hu : d = "up" <;> simp [hu]
    · rw [hc] at h
      cases h

/-- C8 as amended, on `-a shop -m down`: the action is `migrate-down`. -/
theorem GetAction_after_check_witness :
    checkInputs ⟨inputsDown, ""⟩ = .ok none ∧
    ∃ act, GetAction ⟨inputsDown, ""⟩ = .ok (act, none) ∧
      (act = "create" ∨ act = "migrate-up" ∨ act = "migrate-down") :=
  ⟨rfl, (GetAction_after_check ⟨inputsDown, ""⟩ rfl).1 (Or.inl (by decide))⟩

/-- C9: for accepted inputs every later slice index is in range: `GetAppName`
returns, the index in `GetAction` returns whenever `migrate` is non-nil and
`GetAction` itself returns, the index in `create` returns whenever `GetAction`
answered `create`, and `SetPath`, `bootSchema` and `handle` as a whole do not panic. -/
theorem indexes_in_range (env : Env) (a : Args) (hacc : checkInputs a = .ok none) :
    (∃ n, GetAppName a = .ok n) ∧
    (a.Inputs "migrate" ≠ none → ∃ v, index (a.Inputs "migrate") 0 = .ok v) ∧
    (∃ r, GetAction a = .ok r) ∧
    (∀ err, GetAction a = .ok ("create", err) →
      (∃ v, index (a.Inputs "create") 0 = .ok v) ∧ ∀ db, ∃ r, create env a db = .ok r) ∧
    (∀ wd, ∃ r, SetPath wd a = .ok r) ∧
    (∀ db, ∃ r, bootSchema env a db = .ok r) ∧
    (∃ r, handle env a = .ok r) := by
  obtain ⟨⟨n, rest, hn⟩, hshape⟩ := (checkInputs_accepts_iff a).1 hacc
  have hname := GetAppName_of_cons a n rest hn
  have hhandle : ∃ r, handle env a = .ok r := by
    obtain ⟨⟨db, err⟩, hconn⟩ := connect_returns env a n rest hn
    rcases err with _ | e
    · rcases hshape with ⟨lc, hc, hm⟩ | ⟨hc, d, rest2, hm, -⟩
      · rcases lc with _ | ⟨name, lc⟩
        · exact ⟨_, handle_no_action env a db hconn hc hm⟩
        · exact ⟨_, handle_create env a db name lc hconn hc⟩
      · exact ⟨_, handle_migrate env a db d rest2 hconn hc hm⟩
    · exact ⟨_, handle_connect_error env a db e hconn⟩
  refine ⟨⟨n, hname⟩, ?_, ?_, ?_, ?_, fun db => ⟨_, bootSchema_of_appName env a db n rest hn⟩,
    hhandle⟩
  · intro hne
    rcases hshape with ⟨lc, -, hm⟩ | ⟨-, d, rest2, hm, -⟩
    · exact absurd hm hne
    · exact ⟨d, by simp [hm, index]⟩
  · rcases hshape with ⟨lc, hc, hm⟩ | ⟨hc, d, rest2, hm, -⟩
    · rcases lc with _ | ⟨name, lc⟩
      · exact ⟨_, show GetAction a = .ok ("", some "no action could be found") by
          simp [GetAction, hc, hm, len, Errorf, bind, Except.bind, pure, Except.pure]⟩
      · exact ⟨_, GetAction_create a name lc hc⟩
    · exact ⟨_, GetAction_migrate a d rest2 hc hm⟩
  · intro err hact
    rcases hshape with ⟨lc, hc, hm⟩ | ⟨hc, d, rest2, hm, -⟩
    · rcases lc with _ | ⟨name, lc⟩
      · have h2 : GetAction a = .ok ("", some "no action could be found") := by
          simp [GetAction, hc, hm, len, Errorf, bind, Except.bind, pure, Except.pure]
        rw [h2] at hact
        have h3 : "" = "create" := congrArg Prod.fst (Except.ok.inj hact)
        exact absurd h3 (by decide)
      · refine ⟨⟨name, by simp [hc, index]⟩, fun db => ?_⟩
        rcases hx : env.Create db a.Path name with _ | e <;>
        simp [create, hc, index, hx, bind, Except.bind, pure, Except.pure]
    · rw [GetAction_migrate a d rest2 hc hm] at hact
      have h3 := congrArg Prod.fst (Except.ok.inj hact)
      by_cases hu : d = "up"
      · simp [hu] at h3
      · simp [hu] at h3
  · intro wd
    simp only [SetPath, hname, bind, Except.bind, pure, Except.pure]
    split_ifs <;> exact ⟨_, rfl⟩

/-- C9 on `-a shop -m down 3` with an engine that answers every call. -/
theorem indexes_in_range_witness :
    checkInputs ⟨inputsDown3, ""⟩ = .ok none ∧
    (∃ n, GetAppName ⟨inputsDown3, ""⟩ = .ok n) ∧
    (∃ r, GetAction ⟨inputsDown3, ""⟩ = .ok r) ∧
    (∃ r, handle envOk ⟨inputsDown3, ""⟩ = .ok r) :=
  ⟨rfl, (indexes_in_range envOk ⟨inputsDown3, ""⟩ rfl).1,
    (indexes_in_range envOk ⟨inputsDown3, ""⟩ rfl).2.2.1,
    (indexes_in_range envOk ⟨inputsDown3, ""⟩ rfl).2.2.2.2.2.2⟩

/-! ### Values of `migrate` after the first -/

/-- C6: two input maps that differ only in the values of `migrate` after the
first get the same result from `checkInputs`, the same action from `GetAction`
and, under one path, the same run of `handle`; `migrateDown` invokes the
`MigrateDown` verb with the handle and the path only. -/
theorem steps_ignored (env : Env) (i j : Inputs) (path : String)
    (h : sameUpToSteps i j) :
    checkInputs ⟨i, path⟩ = checkInputs ⟨j, path⟩ ∧
    GetAction ⟨i, path⟩ = GetAction ⟨j, path⟩ ∧
    (∀ db, migrateDown env ⟨i, path⟩ db =
        .ok ⟨[.MigrateDown db path], env.MigrateDown db path⟩ ∧
      migrateDown env ⟨i, path⟩ db = migrateDown env ⟨j, path⟩ db) ∧
    handle env ⟨i, path⟩ = handle env ⟨j, path⟩ := by
  obtain ⟨hk, hm⟩ := h
  have hA : i "app-name" = j "app-name" := hk _ (by decide)
  have hC : i "create" = j "create" := hk _ (by decide)
  have hdown : ∀ (x : Inputs) db, migrateDown env ⟨x, path⟩ db =
      .ok ⟨[.MigrateDown db path], env.MigrateDown db path⟩ := by
    intro x db
    rcases hx : env.MigrateDown db path with _ | e <;>
    simp [migrateDown, hx, bind, Except.bind, pure, Except.pure]
  have hname : GetAppName ⟨i, path⟩ = GetAppName ⟨j, path⟩ := by
    simp [GetAppName, hA]
  have hboot : ∀ db, bootSchema env ⟨i, path⟩ db = bootSchema env ⟨j, path⟩ db := by
    intro db
    simp only [bootSchema, hname]
  have hconn : connect env ⟨i, path⟩ = connect env ⟨j, path⟩ := by
    simp only [connect, hboot]
  have hcreate : ∀ db, create env ⟨i, path⟩ db = create env ⟨j, path⟩ db := by
    intro db
    simp only [create, hC]
  have hup : ∀ db, migrateUp env ⟨i, path⟩ db = migrateUp env ⟨j, path⟩ db := by
    intro db
    simp only [migrateUp]
  have hcheck : checkInputs ⟨i, path⟩ = checkInputs ⟨j, path⟩ := by
    rcases hm with hm | ⟨d, r1, r2, h1, h2⟩
    · simp only [checkInputs, hA, hC, hm]
    · simp [checkInputs, hA, hC, h1, h2, index]
  have hact : GetAction ⟨i, path⟩ = GetAction ⟨j, path⟩ := by
    rcases hm with hm | ⟨d, r1, r2, h1, h2⟩
    · simp only [GetAction, hC, hm]
    · simp [GetAction, hC, h1, h2, index]
  refine ⟨hcheck, hact, fun db => ⟨hdown i db, (hdown i db).trans (hdown j db).symm⟩, ?_⟩
  simp only [handle, hconn, hact, hcreate, hup, hdown]

/-- C6 on `-a shop -m down` against `-a shop -m down 3`. -/
theorem steps_ignored_witness :
    sameUpToSteps inputsDown inputsDown3 ∧
    checkInputs ⟨inputsDown, "/p"⟩ = checkInputs ⟨inputsDown3, "/p"⟩ ∧
    handle envOk ⟨inputsDown, "/p"⟩ = handle envOk ⟨inputsDown3, "/p"⟩ := by
  have hs : sameUpToSteps inputsDown inputsDown3 := by
    refine ⟨fun k hk => ?_, Or.inr ⟨"down", [], ["3"], rfl, rfl⟩⟩
    simp [inputsDown, inputsDown3, hk]
  exact ⟨hs, (steps_ignored envOk inputsDown inputsDown3 "/p" hs).1,
    (steps_ignored envOk inputsDown inputsDown3 "/p" hs).2.2.2⟩

/-! ### The base directory -/

/-- The characters of a joined list of strings. -/
theorem Join_data (l : List String) (sep : String) :
    (Join l sep).data = joinChars sep.data (l.map String.data) := by
  induction l with
  | nil => rfl
  | cons x xs ih =>
    cases xs with
    | nil => rfl
    | cons y ys =>
      simp only [Join, String.data_append, ih, List.map_cons, joinChars]

/-- Shape of a split: the pieces before the last one, joined with the separator
and followed by it, and then the last piece, give back the input. -/
theorem splitChars_spec (sep : Char) (cs : List Char) :
    ∃ front last, splitChars sep cs = front ++ [last] ∧ sep ∉ last ∧
      (front = [] → cs = last) ∧
      (front ≠ [] → joinChars [sep] front ++ sep :: last = cs) ∧
      (front ≠ [] ↔ sep ∈ cs) := by
  induction cs with
  | nil => exact ⟨[], [], rfl, by simp, by simp, by simp, by simp⟩
  | cons c cs ih =>
    obtain ⟨front, last, hs, hlast, hnil, hcons, hiff⟩ := ih
    by_cases hc : c = sep
    · refine ⟨[] :: front, last, by simp [splitChars, hc, hs], hlast, by simp, ?_, by simp [hc]⟩
      intro _
      cases front with
      | nil => simp [joinChars, hc, hnil rfl]
      | cons x xs =>
        have := hcons (by simp)
        simp [joinChars, hc, ← this]
    · cases front with
      | nil =>
        refine ⟨[], c :: last, by simp [splitChars, hc, hs], ?_, ?_, by simp, ?_⟩
        · simp [hlast, Ne.symm hc]
        · intro _
          rw [hnil rfl]
        · have : sep ∉ cs := fun h => (hiff.2 h) rfl
          simp [this, Ne.symm hc]
      | cons x xs =>
        have hj := hcons (by simp)
        have hmem : sep ∈ cs := hiff.1 (by simp)
        refine ⟨(c :: x) :: xs, last, by simp [splitChars, hc, hs], hlast, by simp, ?_,
          by simp [hmem]⟩
        intro _
        cases xs with
        | nil => simpa [joinChars] using hj
        | cons y ys => simpa [joinChars] using hj

/-- The directory `getBaseDir` returns, in terms of the pieces of the split. -/
theorem getBaseDir_of_split (d : String) (front : List (List Char)) (last : List Char)
    (hs : splitChars '/' d.data = front ++ [last]) :
    getBaseDir (d, none) =
      (Join (if front = [] then [String.mk last] else front.map String.mk) "/", none) := by
  have hsplit : Split d '/' = front.map String.mk ++ [String.mk last] := by
    simp [Split, hs]
  cases front with
  | nil => simp [getBaseDir, hsplit]
  | cons x xs =>
    have hlen : (List.map String.mk (x :: xs) ++ [String.mk last]).length - 1 =
        (List.map String.mk (x :: xs)).length := by simp
    have htake : List.take ((List.map String.mk (x :: xs) ++ [String.mk last]).length - 1)
        (List.map String.mk (x :: xs) ++ [String.mk last]) = List.map String.mk (x :: xs) := by
      rw [hlen]
      exact List.take_left _ _
    have hgt : (List.map String.mk (x :: xs) ++ [String.mk last]).length > 1 := by simp
    simp only [getBaseDir, hsplit]
    rw [if_neg (by simp), if_pos hgt, htake, if_neg (by simp)]

/-- C5: with working directory `d`, `getBaseDir` returns `d` without its last
`/`-separated component and the `/` before it when `d` contains a `/` (the
result, a `/` and that component give back `d`), and `d` itself otherwise; and
for an app name `n`, `SetPath` sets `Path` to the base directory followed by
`/`, `n` and `/migrations`, and returns nil. -/
theorem getBaseDir_SetPath (d : String) :
    ('/' ∈ d.data →
      ∃ last, (Split d '/').getLast? = some last ∧ '/' ∉ last.data ∧
        (getBaseDir (d, none)).1 ++ "/" ++ last = d) ∧
    ('/' ∉ d.data → (getBaseDir (d, none)).1 = d) ∧
    (getBaseDir (d, none)).2 = none ∧
    (∀ (a : Args) (n : String) (rest : List String),
      a.Inputs "app-name" = some (n :: rest) →
      SetPath (d, none) a =
        .ok ({ a with Path := (getBaseDir (d, none)).1 ++ "/" ++ n ++ "/migrations" }, none)) := by
  obtain ⟨front, last, hs, hlast, hnil, hcons, hiff⟩ := splitChars_spec '/' d.data
  have hbase := getBaseDir_of_split d front last hs
  have hsplit : Split d '/' = front.map String.mk ++ [String.mk last] := by
    simp [Split, hs]
  refine ⟨?_, ?_, by rw [hbase], ?_⟩
  · intro hmem
    have hne : front ≠ [] := hiff.2 hmem
    refine ⟨String.mk last, by simp [hsplit], hlast, ?_⟩
    rw [hbase, if_neg hne]
    apply String.ext
    simp only [String.data_append, Join_data, List.map_map]
    have hid : (String.data ∘ String.mk) = (id : List Char → List Char) := rfl
    rw [hid, List.map_id]
    have := hcons hne
    simpa using this
  · intro hmem
    have he : front = [] := by
      by_contra hne
      exact hmem (hiff.1 hne)
    rw [hbase, if_pos he]
    apply String.ext
    simp [Join, hnil he]
  · intro a n rest hn
    have hname := GetAppName_of_cons a n rest hn
    have h2 : (getBaseDir (d, none)).2 = none := by rw [hbase]
    rcases hg : getBaseDir (d, none) with ⟨dir, err⟩
    rw [hg] at h2
    simp only at h2
    subst h2
    simp [SetPath, hname, hg, bind, Except.bind, pure, Except.pure]

/-- C5 on the working directory `/home/u/cli` and the app `shop`. -/
theorem getBaseDir_SetPath_witness :
    '/' ∈ "/home/u/cli".data ∧
    inputsDown "app-name" = some ("shop" :: []) ∧
    getBaseDir ("/home/u/cli", none) = ("/home/u", none) ∧
    (∃ last, (Split "/home/u/cli" '/').getLast? = some last ∧ '/' ∉ last.data ∧
        (getBaseDir ("/home/u/cli", none)).1 ++ "/" ++ last = "/home/u/cli") ∧
    SetPath ("/home/u/cli", none) ⟨inputsDown, ""⟩ =
      .ok (⟨inputsDown, (getBaseDir ("/home/u/cli", none)).1 ++ "/" ++ "shop" ++ "/migrations"⟩,
        none) :=
  ⟨by decide, by decide, by decide,
    (getBaseDir_SetPath "/home/u/cli").1 (by decide),
    (getBaseDir_SetPath "/home/u/cli").2.2.2 ⟨inputsDown, ""⟩ "shop" [] (by decide)⟩

/-! ### The up plan -/

/-- The comparison used by the planner is the order on version strings. -/
theorem data_lt_iff (v w : String) : v.data < w.data ↔ v < w :=
  String.lt_iff_toList_lt.symm

/-- Inserting a file adds it once and keeps the others. -/
theorem insertByVersion_perm (f : MigrationFile) (l : List MigrationFile) :
    (insertByVersion f l).Perm (f :: l) := by
  induction l with
  | nil => exact List.Perm.refl _
  | cons g rest ih =>
    by_cases h : f.version.data < g.version.data
    · simp [insertByVersion, h]
    · simp only [insertByVersion, h, if_false]
      exact (List.Perm.cons g ih).trans (List.Perm.swap f g rest)

/-- Sorting by version rearranges the files. -/
theorem sortByVersion_perm (l : List MigrationFile) : (sortByVersion l).Perm l := by
  induction l with
  | nil => exact List.Perm.refl _
  | cons f rest ih =>
    exact (insertByVersion_perm f (sortByVersion rest)).trans (List.Perm.cons f ih)

/-- Inserting a file with a fresh version into a strictly ascending list keeps it
strictly ascending. -/
theorem insertByVersion_ascending (f : MigrationFile) (l : List MigrationFile)
    (hl : l.Pairwise (fun x y => x.version < y.version))
    (hf : ∀ g ∈ l, g.version ≠ f.version) :
    (insertByVersion f l).Pairwise (fun x y => x.version < y.version) := by
  induction l with
  | nil => simp [insertByVersion]
  | cons g rest ih =>
    have hg := List.pairwise_cons.1 hl
    by_cases h : f.version.data < g.version.data
    · have hfg : f.version < g.version := (data_lt_iff _ _).1 h
      simp only [insertByVersion, h, if_true]
      refine List.pairwise_cons.2 ⟨?_, hl⟩
      intro x hx
      rcases List.mem_cons.1 hx with hx | hx
      · rw [hx]
        exact hfg
      · exact lt_trans hfg (hg.1 x hx)
    · have hnot : ¬ f.version < g.version := fun h2 => h ((data_lt_iff _ _).2 h2)
      have hgf : g.version < f.version :=
        lt_of_le_of_ne (not_lt.1 hnot) (hf g (List.mem_cons_self _ _))
      simp only [insertByVersion, h, if_false]
      refine List.pairwise_cons.2 ⟨?_, ih hg.2 (fun x hx => hf x (List.mem_cons_of_mem _ hx))⟩
      intro x hx
      rcases List.mem_cons.1 ((insertByVersion_perm f rest).mem_iff.1 hx) with hx | hx
      · rw [hx]
        exact hgf
      · exact hg.1 x hx

/-- Files with distinct versions come out of the sort strictly ascending. -/
theorem sortByVersion_ascending (l : List MigrationFile)
    (hl : (l.map (fun f => f.version)).Nodup) :
    (sortByVersion l).Pairwise (fun x y => x.version < y.version) := by
  induction l with
  | nil => simp [sortByVersion]
  | cons f rest ih =>
    rw [List.map_cons, List.nodup_cons] at hl
    refine insertByVersion_ascending f (sortByVersion rest) (ih hl.2) ?_
    intro g hg hv
    exact hl.1 (List.mem_map.2 ⟨g, (sortByVersion_perm rest).mem_iff.1 hg, hv⟩)

/-- Two strictly ascending lists of the same files are the same list. -/
theorem ascending_unique (l1 l2 : List MigrationFile) (hp : l1.Perm l2)
    (h1 : l1.Pairwise (fun x y => x.version < y.version))
    (h2 : l2.Pairwise (fun x y => x.version < y.version)) : l1 = l2 :=
  @List.eq_of_perm_of_sorted MigrationFile (fun x y => x.version < y.version)
    ⟨fun _ _ hab hba => absurd hab (lt_asymm hba)⟩ l1 l2 hp h1 h2

/-- Strictly ascending versions are distinct. -/
theorem ascending_nodup (l : List MigrationFile)
    (h : l.Pairwise (fun x y => x.version < y.version)) :
    (l.map (fun f => f.version)).Nodup := by
  rw [List.Nodup, List.pairwise_map]
  exact h.imp (fun hxy => ne_of_lt hxy)

/-- With an empty ledger no file is filtered out. -/
theorem filter_empty_ledger (catalog : List MigrationFile) :
    catalog.filter (fun f => !([] : List String).contains f.version) = catalog := by
  simp

/-- C4: let `files` be N migration files listed by strictly increasing version
and `catalog` the same files in any order.  With an empty ledger the up plan is
exactly `files`: every file of the catalog, each once, ascending by version. -/
theorem ComputeUpPlan_empty_ledger (files catalog : List MigrationFile)
    (hfiles : files.Pairwise (fun x y => x.version < y.version))
    (hcat : catalog.Perm files) :
    ComputeUpPlan catalog [] = files ∧
    (ComputeUpPlan catalog []).Perm catalog ∧
    (ComputeUpPlan catalog []).length = catalog.length ∧
    (ComputeUpPlan catalog []).Nodup ∧
    (ComputeUpPlan catalog []).Pairwise (fun x y => x.version < y.version) := by
  have hplan : ComputeUpPlan catalog [] = sortByVersion catalog := by
    unfold ComputeUpPlan
    rw [filter_empty_ledger]
  have hnodup : (catalog.map (fun f => f.version)).Nodup :=
    (List.Perm.map _ hcat).nodup_iff.2 (ascending_nodup files hfiles)
  have hasc := sortByVersion_ascending catalog hnodup
  have hperm := sortByVersion_perm catalog
  have heq : sortByVersion catalog = files :=
    ascending_unique _ _ (hperm.trans hcat) hasc hfiles
  rw [hplan]
  refine ⟨heq, hperm, hperm.length_eq, ?_, hasc⟩
  rw [heq]
  exact List.Nodup.of_map _ (ascending_nodup files hfiles)

/-- C4 on the two files of the end-to-end example, discovered in reverse order. -/
theorem ComputeUpPlan_empty_ledger_witness :
    catalog2.Pairwise (fun x y => x.version < y.version) ∧
    catalog2.reverse.Perm catalog2 ∧
    ComputeUpPlan catalog2.reverse [] = catalog2 :=
  have h : catalog2.Pairwise (fun x y => x.version < y.version) := by
    refine List.pairwise_cons.2 ⟨?_, List.pairwise_cons.2 ⟨?_, List.Pairwise.nil⟩⟩
    · intro x hx
      rcases List.mem_singleton.1 hx with rfl
      exact String.lt_iff_toList_lt.2 (by decide)
    · intro x hx
      cases hx
  ⟨h, List.reverse_perm _, (ComputeUpPlan_empty_ledger catalog2 catalog2.reverse h
    (List.reverse_perm _)).1⟩

end MigrateCLI
